import Mathlib

/-!
Shallow embedding of `src/inputs/string_input.rs` (pest's `StringInput`
buffered input): `len`, `pos`, `set_pos`, `slice`, `line_col`, `matches`
and `between`, together with the UTF-8 facts the verification needs.

A Rust `String` is always valid UTF-8, so the buffer is modelled as the
list of its Unicode scalar values (`List Nat`); byte-level operations
(`matches`, `between`, `slice`, byte positions) go through an explicit
UTF-8 encoder/decoder.  Panics (`panic!`, `unreachable!`, `unwrap` and
slice-index panics in the Rust source) are modelled as `none`.
-/

/-- Encoded UTF-8 width of a code point, as Rust `char::len_utf8`. -/
def lenUtf8 (c : Nat) : Nat :=
  if c < 0x80 then 1
  else if c < 0x800 then 2
  else if c < 0x10000 then 3
  else 4

/-- A Unicode scalar value: exactly the values a Rust `char` may hold. -/
def validChar (c : Nat) : Bool :=
  decide (c < 0xD800) || (decide (0xE000 ≤ c) && decide (c < 0x110000))

/-- Every character is a Unicode scalar value (invariant of Rust `String`). -/
def validStr (cs : List Nat) : Bool :=
  cs.all validChar

/-- UTF-8 encoding of one code point. -/
def encodeChar (c : Nat) : List Nat :=
  if c < 0x80 then [c]
  else if c < 0x800 then [0xC0 + c / 64, 0x80 + c % 64]
  else if c < 0x10000 then [0xE0 + c / 4096, 0x80 + c / 64 % 64, 0x80 + c % 64]
  else [0xF0 + c / 262144, 0x80 + c / 4096 % 64, 0x80 + c / 64 % 64, 0x80 + c % 64]

/-- UTF-8 encoding of a character sequence: the byte content of the buffer. -/
def encode : List Nat → List Nat
  | [] => []
  | c :: cs => encodeChar c ++ encode cs

/-- Byte length of a character sequence, as Rust `String::len`. -/
def strLen : List Nat → Nat
  | [] => 0
  | c :: cs => lenUtf8 c + strLen cs

/-- Decode the first UTF-8 character of a byte list, with the validity
checks of Rust `str::from_utf8`: continuation-byte shape, no overlong
forms, no surrogates, nothing above `0x10FFFF`. -/
def decodeFirst : List Nat → Option (Nat × List Nat)
  | [] => none
  | b0 :: rest =>
    if b0 < 0x80 then some (b0, rest)
    else if b0 < 0xC2 then none
    else if b0 < 0xE0 then
      match rest with
      | b1 :: r =>
        if 0x80 ≤ b1 ∧ b1 < 0xC0 then some ((b0 - 0xC0) * 64 + (b1 - 0x80), r)
        else none
      | [] => none
    else if b0 < 0xF0 then
      match rest with
      | b1 :: b2 :: r =>
        if 0x80 ≤ b1 ∧ b1 < 0xC0 ∧ 0x80 ≤ b2 ∧ b2 < 0xC0 then
          if (b0 - 0xE0) * 4096 + (b1 - 0x80) * 64 + (b2 - 0x80) < 0x800 then none
          else if 0xD800 ≤ (b0 - 0xE0) * 4096 + (b1 - 0x80) * 64 + (b2 - 0x80) ∧
              (b0 - 0xE0) * 4096 + (b1 - 0x80) * 64 + (b2 - 0x80) < 0xE000 then none
          else some ((b0 - 0xE0) * 4096 + (b1 - 0x80) * 64 + (b2 - 0x80), r)
        else none
      | _ => none
    else if b0 < 0xF5 then
      match rest with
      | b1 :: b2 :: b3 :: r =>
        if 0x80 ≤ b1 ∧ b1 < 0xC0 ∧ 0x80 ≤ b2 ∧ b2 < 0xC0 ∧ 0x80 ≤ b3 ∧ b3 < 0xC0 then
          if (b0 - 0xF0) * 262144 + (b1 - 0x80) * 4096 + (b2 - 0x80) * 64 + (b3 - 0x80)
              < 0x10000 then none
          else if (b0 - 0xF0) * 262144 + (b1 - 0x80) * 4096 + (b2 - 0x80) * 64 + (b3 - 0x80)
              < 0x110000 then
            some ((b0 - 0xF0) * 262144 + (b1 - 0x80) * 4096 + (b2 - 0x80) * 64 + (b3 - 0x80), r)
          else none
        else none
      | _ => none
    else none

/-- Fuelled helper for `utf8Decode`. -/
def utf8DecodeAux : Nat → List Nat → Option (List Nat)
  | _, [] => some []
  | 0, _ :: _ => none
  | fuel + 1, b :: rest =>
    match decodeFirst (b :: rest) with
    | none => none
    | some (c, r) => Option.map (fun cs => c :: cs) (utf8DecodeAux fuel r)

/-- Full UTF-8 validation and decoding of a byte list: `some` of the decoded
characters exactly when Rust `str::from_utf8` succeeds. -/
def utf8Decode (l : List Nat) : Option (List Nat) :=
  utf8DecodeAux l.length l

/-- Rust `str::is_char_boundary` for byte offset `i`, phrased on the decoded
characters: `i` is a boundary iff it is the byte length of a prefix of the
character sequence (for valid UTF-8 this is the Rust byte-level check). -/
def isCharBoundary : List Nat → Nat → Bool
  | _, 0 => true
  | [], _ + 1 => false
  | c :: rest, i + 1 =>
    if lenUtf8 c ≤ i + 1 then isCharBoundary rest (i + 1 - lenUtf8 c) else false

/-- The struct from `string_input.rs`: an owned immutable buffer (stored
here as its decoded characters) and a byte cursor. -/
structure StringInput where
  string : List Nat
  pos : Nat
deriving DecidableEq

/-- `StringInput::new`. -/
def StringInput.new (s : List Nat) : StringInput :=
  ⟨s, 0⟩

/-- `Input::len` for `StringInput`: byte length of the buffer. -/
def StringInput.len (s : StringInput) : Nat :=
  strLen s.string

/-- `Input::set_pos` for `StringInput`: unconditional cursor write. -/
def StringInput.set_pos (s : StringInput) (p : Nat) : StringInput :=
  { s with pos := p }

/-- `Input::slice` for `StringInput`: Rust `&self.string[start..end]`, which
panics (`none`) unless `start ≤ end` and both indices are character
boundaries; otherwise the buffer bytes in `[start, end)`. -/
def StringInput.slice (s : StringInput) (start stop : Nat) : Option (List Nat) :=
  if start ≤ stop ∧ isCharBoundary s.string start ∧ isCharBoundary s.string stop then
    some (((encode s.string).drop start).take (stop - start))
  else none

/-- The recursive helper `find` inside `StringInput::line_col`: walks the
character iterator consuming `pos` characters-worth of input (a CRLF pair
consumes two at once), tracking the 1-based (line, column) pair.  `none`
models the `unreachable!()` panic hit when the iterator is exhausted. -/
def find : List Nat → Nat → Nat × Nat → Option (Nat × Nat)
  | _, 0, cur => some cur
  | [], _ + 1, _ => none
  | c :: rest, p + 1, cur =>
    if c = 13 then
      if rest.head? = some 10 then
        match p with
        | 0 => find rest.tail 0 (cur.1 + 1, 1)
        | q + 1 => find rest.tail q (cur.1 + 1, 1)
      else find rest p (cur.1 + 1, 1)
    else if c = 10 then find rest p (cur.1 + 1, 1)
    else find rest p (cur.1, cur.2 + 1)

/-- `Input::line_col` for `StringInput`; `none` models the fatal aborts
(the explicit bounds `panic!` and the scanner's `unreachable!()`). -/
def StringInput.line_col (s : StringInput) (pos : Nat) : Option (Nat × Nat) :=
  if pos > strLen s.string then none
  else find s.string pos (1, 1)

/-- `Input::matches` for `StringInput`: raw byte comparison of the literal
(also given as decoded characters) against the buffer bytes at
`[pos, pos + lit.len())`, advancing exactly on success. -/
def StringInput.matches (s : StringInput) (lit : List Nat) : Bool × StringInput :=
  if s.pos + strLen lit ≤ strLen s.string then
    if ((encode s.string).drop s.pos).take (strLen lit) = encode lit then
      (true, { s with pos := s.pos + strLen lit })
    else (false, s)
  else (false, s)

/-- `Input::between` for `StringInput`.  `none` models the panics (the
width-mismatch `panic!` and the `unwrap`); otherwise the Rust `bool` and the
updated struct.  The window decode models `str::from_utf8`; a malformed
window is an ordinary `false`. -/
def StringInput.between (s : StringInput) (left right : Nat) :
    Option (Bool × StringInput) :=
  if lenUtf8 left ≠ lenUtf8 right then none
  else
    if s.pos + lenUtf8 left ≤ strLen s.string then
      match utf8Decode (((encode s.string).drop s.pos).take (lenUtf8 left)) with
      | some (c :: _) =>
        if left ≤ c ∧ c ≤ right then some (true, { s with pos := s.pos + lenUtf8 left })
        else some (false, s)
      | some [] => none
      | none => some (false, s)
    else some (false, s)

/-- Ordering on (line, column) pairs used to state `line_col` monotonicity:
the line grows, or the line is unchanged and the column does not shrink. -/
def lcLe (a b : Nat × Nat) : Prop :=
  a.1 < b.1 ∨ (a.1 = b.1 ∧ a.2 ≤ b.2)

/-- The unit-test buffer `"a\rb\nc\r\nd"` from the `line_col` test. -/
def demoInput : StringInput :=
  StringInput.new [97, 13, 98, 10, 99, 13, 10, 100]

/-- The single-character buffer `"é"` (U+00E9), two bytes in UTF-8. -/
def multiInput : StringInput :=
  StringInput.new [233]

/-- The unit-test buffer `"asdasdf"`. -/
def asdInput : StringInput :=
  StringInput.new [97, 115, 100, 97, 115, 100, 102]

/-- The unit-test buffer `"bbbb"`. -/
def bbInput : StringInput :=
  StringInput.new [98, 98, 98, 98]

example : demoInput.line_col 0 = some (1, 1) := by decide
example : demoInput.line_col 6 = some (4, 1) := by decide
example : demoInput.line_col 7 = some (4, 1) := by decide
example : demoInput.line_col 8 = some (4, 2) := by decide
example : (asdInput.matches [97, 115, 100]).1 = true := by decide
example : ((asdInput.matches [97, 115, 100]).2.matches [97, 115, 100, 102]).1 = true := by decide
example : bbInput.between 97 99 = some (true, ⟨bbInput.string, 1⟩) := by decide
example : multiInput.line_col 2 = none := by decide
example : utf8Decode (encode [233, 97]) = some [233, 97] := by decide

/-! ### Basic facts about widths, encoding and byte lengths -/

theorem lenUtf8_pos (c : Nat) : 1 ≤ lenUtf8 c := by
  unfold lenUtf8
  split_ifs <;> omega

theorem lenUtf8_mono {a b : Nat} (h : a ≤ b) : lenUtf8 a ≤ lenUtf8 b := by
  unfold lenUtf8
  split_ifs <;> omega

theorem encodeChar_length (c : Nat) : (encodeChar c).length = lenUtf8 c := by
  unfold encodeChar lenUtf8
  split_ifs <;> rfl

theorem encodeChar_ne_nil (c : Nat) : encodeChar c ≠ [] := by
  intro hn
  have h := encodeChar_length c
  have h1 := lenUtf8_pos c
  rw [hn] at h
  simp at h
  omega

theorem encode_append (a b : List Nat) : encode (a ++ b) = encode a ++ encode b := by
  induction a with
  | nil => rfl
  | cons c cs ih => simp [encode, ih]

theorem strLen_append (a b : List Nat) : strLen (a ++ b) = strLen a + strLen b := by
  induction a with
  | nil =>
    show strLen b = 0 + strLen b
    omega
  | cons c cs ih =>
    show lenUtf8 c + strLen (cs ++ b) = lenUtf8 c + strLen cs + strLen b
    rw [ih]
    omega

theorem encode_length (cs : List Nat) : (encode cs).length = strLen cs := by
  induction cs with
  | nil => rfl
  | cons c cs ih => simp [encode, strLen, encodeChar_length, ih]

theorem length_le_strLen (cs : List Nat) : cs.length ≤ strLen cs := by
  induction cs with
  | nil => simp [strLen]
  | cons c cs ih =>
    have h := lenUtf8_pos c
    simp only [List.length_cons, strLen]
    omega

theorem strLen_eq_zero {cs : List Nat} (h : strLen cs = 0) : cs = [] := by
  cases cs with
  | nil => rfl
  | cons c cs =>
    have h1 := lenUtf8_pos c
    simp only [strLen] at h
    omega

theorem validChar_of_mem {cs : List Nat} (h : validStr cs = true) {c : Nat}
    (hc : c ∈ cs) : validChar c = true := by
  simp only [validStr, List.all_eq_true] at h
  exact h c hc

theorem validStr_append_left {a b : List Nat} (h : validStr (a ++ b) = true) :
    validStr a = true := by
  simp only [validStr, List.all_eq_true] at h ⊢
  exact fun c hc => h c (List.mem_append_left _ hc)

theorem validStr_append_right {a b : List Nat} (h : validStr (a ++ b) = true) :
    validStr b = true := by
  simp only [validStr, List.all_eq_true] at h ⊢
  exact fun c hc => h c (List.mem_append_right _ hc)

/-! ### Decoding an encoded character -/

theorem validChar_ranges {c : Nat} (h : validChar c = true) :
    c < 0xD800 ∨ (0xE000 ≤ c ∧ c < 0x110000) := by
  simp only [validChar, Bool.or_eq_true, Bool.and_eq_true, decide_eq_true_eq] at h
  exact h

theorem encodeChar_one {c : Nat} (h1 : c < 0x80) : encodeChar c = [c] := by
  simp [encodeChar, h1]

theorem encodeChar_two {c : Nat} (h1 : ¬ c < 0x80) (h2 : c < 0x800) :
    encodeChar c = [0xC0 + c / 64, 0x80 + c % 64] := by
  simp [encodeChar, h1, h2]

theorem encodeChar_three {c : Nat} (h2 : ¬ c < 0x800) (h3 : c < 0x10000) :
    encodeChar c = [0xE0 + c / 4096, 0x80 + c / 64 % 64, 0x80 + c % 64] := by
  have h1 : ¬ c < 0x80 := by omega
  simp [encodeChar, h1, h2, h3]

theorem encodeChar_four {c : Nat} (h3 : ¬ c < 0x10000) :
    encodeChar c = [0xF0 + c / 262144, 0x80 + c / 4096 % 64, 0x80 + c / 64 % 64, 0x80 + c % 64] := by
  have h1 : ¬ c < 0x80 := by omega
  have h2 : ¬ c < 0x800 := by omega
  simp [encodeChar, h1, h2, h3]

theorem decodeFirst_encodeChar {c : Nat} (h : validChar c = true) (t : List Nat) :
    decodeFirst (encodeChar c ++ t) = some (c, t) := by
  have hv := validChar_ranges h
  by_cases h1 : c < 0x80
  · rw [encodeChar_one h1]
    simp only [List.cons_append, List.nil_append, decodeFirst]
    rw [if_pos h1]
  · by_cases h2 : c < 0x800
    · rw [encodeChar_two h1 h2]
      simp only [List.cons_append, List.nil_append, decodeFirst]
      rw [if_neg (by omega), if_neg (by omega), if_pos (by omega),
        if_pos (by constructor <;> omega)]
      simp only [Option.some.injEq, Prod.mk.injEq]
      exact ⟨by omega, trivial⟩
    · by_cases h3 : c < 0x10000
      · rw [encodeChar_three h2 h3]
        simp only [List.cons_append, List.nil_append, decodeFirst]
        rw [if_neg (by omega), if_neg (by omega), if_neg (by omega), if_pos (by omega),
          if_pos (by refine ⟨by omega, by omega, by omega, by omega⟩),
          if_neg (by omega), if_neg (by omega)]
        simp only [Option.some.injEq, Prod.mk.injEq]
        exact ⟨by omega, trivial⟩
      · rw [encodeChar_four h3]
        simp only [List.cons_append, List.nil_append, decodeFirst]
        rw [if_neg (by omega), if_neg (by omega), if_neg (by omega), if_neg (by omega),
          if_pos (by omega),
          if_pos (by refine ⟨by omega, by omega, by omega, by omega, by omega, by omega⟩),
          if_neg (by omega), if_pos (by omega)]
        simp only [Option.some.injEq, Prod.mk.injEq]
        exact ⟨by omega, trivial⟩

theorem decodeFirst_take_none {c : Nat} (h : validChar c = true) {k : Nat}
    (hk1 : 1 ≤ k) (hk2 : k < lenUtf8 c) :
    decodeFirst ((encodeChar c).take k) = none := by
  have hv := validChar_ranges h
  have hc : c < 0x110000 := by rcases hv with h' | h' <;> omega
  by_cases h1 : c < 0x80
  · exfalso
    unfold lenUtf8 at hk2
    rw [if_pos h1] at hk2
    omega
  · by_cases h2 : c < 0x800
    · have hk : k = 1 := by
        unfold lenUtf8 at hk2
        rw [if_neg h1, if_pos h2] at hk2
        omega
      subst hk
      rw [encodeChar_two h1 h2]
      show decodeFirst [0xC0 + c / 64] = none
      simp only [decodeFirst]
      rw [if_neg (by omega), if_neg (by omega), if_pos (by omega)]
    · by_cases h3 : c < 0x10000
      · have hk : k = 1 ∨ k = 2 := by
          unfold lenUtf8 at hk2
          rw [if_neg h1, if_neg (by omega : ¬ c < 0x800), if_pos h3] at hk2
          omega
        rw [encodeChar_three h2 h3]
        rcases hk with hk | hk <;> subst hk
        · show decodeFirst [0xE0 + c / 4096] = none
          simp only [decodeFirst]
          rw [if_neg (by omega), if_neg (by omega), if_neg (by omega), if_pos (by omega)]
        · show decodeFirst [0xE0 + c / 4096, 0x80 + c / 64 % 64] = none
          simp only [decodeFirst]
          rw [if_neg (by omega), if_neg (by omega), if_neg (by omega), if_pos (by omega)]
      · have hk : k = 1 ∨ k = 2 ∨ k = 3 := by
          unfold lenUtf8 at hk2
          rw [if_neg h1, if_neg (by omega : ¬ c < 0x800), if_neg h3] at hk2
          omega
        rw [encodeChar_four h3]
        rcases hk with hk | hk | hk <;> subst hk
        · show decodeFirst [0xF0 + c / 262144] = none
          simp only [decodeFirst]
          rw [if_neg (by omega), if_neg (by omega), if_neg (by omega), if_neg (by omega),
            if_pos (by omega)]
        · show decodeFirst [0xF0 + c / 262144, 0x80 + c / 4096 % 64] = none
          simp only [decodeFirst]
          rw [if_neg (by omega), if_neg (by omega), if_neg (by omega), if_neg (by omega),
            if_pos (by omega)]
        · show decodeFirst [0xF0 + c / 262144, 0x80 + c / 4096 % 64, 0x80 + c / 64 % 64] = none
          simp only [decodeFirst]
          rw [if_neg (by omega), if_neg (by omega), if_neg (by omega), if_neg (by omega),
            if_pos (by omega)]

theorem decodeFirst_length : ∀ {l : List Nat} {c : Nat} {r : List Nat},
    decodeFirst l = some (c, r) → r.length < l.length := by
  intro l c r h
  match l with
  | [] => simp [decodeFirst] at h
  | [b0] =>
    simp only [decodeFirst] at h
    split_ifs at h <;> simp_all
  | [b0, b1] =>
    simp only [decodeFirst] at h
    split_ifs at h <;> simp_all <;> omega
  | [b0, b1, b2] =>
    simp only [decodeFirst] at h
    split_ifs at h <;> simp_all <;> omega
  | b0 :: b1 :: b2 :: b3 :: rest =>
    simp only [decodeFirst] at h
    split_ifs at h <;> simp_all <;> omega

theorem utf8DecodeAux_nil (f : Nat) : utf8DecodeAux f [] = some [] := by
  cases f <;> rfl

theorem utf8DecodeAux_congr : ∀ (f1 f2 : Nat) (l : List Nat),
    l.length ≤ f1 → l.length ≤ f2 → utf8DecodeAux f1 l = utf8DecodeAux f2 l := by
  intro f1
  induction f1 with
  | zero =>
    intro f2 l h1 h2
    have hl : l = [] := by
      cases l with
      | nil => rfl
      | cons b rest => simp at h1
    subst hl
    rw [utf8DecodeAux_nil, utf8DecodeAux_nil]
  | succ f ih =>
    intro f2 l h1 h2
    cases l with
    | nil => rw [utf8DecodeAux_nil, utf8DecodeAux_nil]
    | cons b rest =>
      cases f2 with
      | zero => simp at h2
      | succ g =>
        cases hd : decodeFirst (b :: rest) with
        | none => simp only [utf8DecodeAux, hd]
        | some cr =>
          obtain ⟨c, r⟩ := cr
          have hr := decodeFirst_length hd
          simp only [utf8DecodeAux, hd]
          rw [ih g r (by simp at h1 hr ⊢; omega) (by simp at h2 hr ⊢; omega)]

theorem utf8Decode_cons_some {b : Nat} {rest : List Nat} {c : Nat} {r : List Nat}
    (hd : decodeFirst (b :: rest) = some (c, r)) :
    utf8Decode (b :: rest) = Option.map (fun cs => c :: cs) (utf8Decode r) := by
  have hr := decodeFirst_length hd
  simp only [List.length_cons] at hr
  unfold utf8Decode
  simp only [List.length_cons, utf8DecodeAux, hd]
  rw [utf8DecodeAux_congr rest.length r.length r (by omega) le_rfl]

theorem utf8Decode_cons_none {b : Nat} {rest : List Nat}
    (hd : decodeFirst (b :: rest) = none) : utf8Decode (b :: rest) = none := by
  unfold utf8Decode
  simp only [List.length_cons, utf8DecodeAux, hd]

theorem utf8Decode_ne_some_nil {l : List Nat} (hl : l ≠ []) :
    utf8Decode l ≠ some [] := by
  cases l with
  | nil => exact absurd rfl hl
  | cons b rest =>
    cases hd : decodeFirst (b :: rest) with
    | none => rw [utf8Decode_cons_none hd]; simp
    | some cr =>
      obtain ⟨c, r⟩ := cr
      rw [utf8Decode_cons_some hd]
      cases utf8Decode r <;> simp

theorem utf8Decode_encodeChar_append {c : Nat} (h : validChar c = true) (t : List Nat) :
    utf8Decode (encodeChar c ++ t) = Option.map (fun cs => c :: cs) (utf8Decode t) := by
  have hd := decodeFirst_encodeChar h t
  cases he : encodeChar c with
  | nil => exact absurd he (encodeChar_ne_nil c)
  | cons e es =>
    rw [he, List.cons_append] at hd
    exact utf8Decode_cons_some hd

theorem utf8Decode_encode {cs : List Nat} (h : validStr cs = true) :
    utf8Decode (encode cs) = some cs := by
  induction cs with
  | nil => rfl
  | cons c rest ih =>
    have hc : validChar c = true := validChar_of_mem h (by simp)
    have hrest : validStr rest = true := by
      simp only [validStr, List.all_cons, Bool.and_eq_true] at h
      exact h.2
    show utf8Decode (encodeChar c ++ encode rest) = some (c :: rest)
    rw [utf8Decode_encodeChar_append hc, ih hrest]
    rfl

/-! ### Unique decodability of UTF-8 and character boundaries -/

theorem validStr_cons_head {c : Nat} {cs : List Nat} (h : validStr (c :: cs) = true) :
    validChar c = true :=
  validChar_of_mem h (by simp)

theorem validStr_cons_tail {c : Nat} {cs : List Nat} (h : validStr (c :: cs) = true) :
    validStr cs = true := by
  simp only [validStr, List.all_cons, Bool.and_eq_true] at h
  exact h.2

theorem encode_agree : ∀ (lit suf : List Nat), validStr lit = true → validStr suf = true →
    ∀ t, encode suf = encode lit ++ t → ∃ u, suf = lit ++ u := by
  intro lit
  induction lit with
  | nil => exact fun suf _ _ t _ => ⟨suf, rfl⟩
  | cons c lit ih =>
    intro suf hl hs t h
    cases suf with
    | nil =>
      exfalso
      have h0 : ([] : List Nat) = encodeChar c ++ (encode lit ++ t) := by
        simpa [encode, List.append_assoc] using h
      cases he : encodeChar c with
      | nil => exact encodeChar_ne_nil c he
      | cons e es => rw [he] at h0; simp at h0
    | cons d suf2 =>
      have hvd := validStr_cons_head hs
      have hvc := validStr_cons_head hl
      have h1 : decodeFirst (encodeChar d ++ encode suf2) = some (d, encode suf2) :=
        decodeFirst_encodeChar hvd _
      have heq : encodeChar d ++ encode suf2 = encodeChar c ++ (encode lit ++ t) := by
        simpa [encode, List.append_assoc] using h
      rw [heq, decodeFirst_encodeChar hvc _] at h1
      simp only [Option.some.injEq, Prod.mk.injEq] at h1
      obtain ⟨hcd, hrest⟩ := h1
      subst hcd
      obtain ⟨u, hu⟩ := ih suf2 (validStr_cons_tail hl) (validStr_cons_tail hs) t hrest.symm
      exact ⟨u, by rw [hu, List.cons_append]⟩

theorem isCharBoundary_zero (cs : List Nat) : isCharBoundary cs 0 = true := by
  cases cs <;> rfl

theorem isCharBoundary_append (pre suf : List Nat) :
    isCharBoundary (pre ++ suf) (strLen pre) = true := by
  induction pre with
  | nil => exact isCharBoundary_zero suf
  | cons c pre ih =>
    have hw := lenUtf8_pos c
    show isCharBoundary (c :: (pre ++ suf)) (lenUtf8 c + strLen pre) = true
    obtain ⟨i, hi⟩ : ∃ i, lenUtf8 c + strLen pre = i + 1 :=
      ⟨lenUtf8 c + strLen pre - 1, by omega⟩
    rw [hi]
    simp only [isCharBoundary]
    rw [if_pos (by omega)]
    have h2 : i + 1 - lenUtf8 c = strLen pre := by omega
    rw [h2]
    exact ih

theorem isCharBoundary_strLen (cs : List Nat) : isCharBoundary cs (strLen cs) = true := by
  have h := isCharBoundary_append cs []
  simpa using h

theorem isCharBoundary_decomp (cs : List Nat) : ∀ (i : Nat), isCharBoundary cs i = true →
    ∃ pre suf, cs = pre ++ suf ∧ strLen pre = i := by
  induction cs with
  | nil =>
    intro i h
    cases i with
    | zero => exact ⟨[], [], rfl, rfl⟩
    | succ j => simp [isCharBoundary] at h
  | cons c rest ih =>
    intro i h
    cases i with
    | zero => exact ⟨[], c :: rest, rfl, rfl⟩
    | succ j =>
      simp only [isCharBoundary] at h
      split_ifs at h with hw
      obtain ⟨pre, suf, hcs, hlen⟩ := ih _ h
      refine ⟨c :: pre, suf, by rw [List.cons_append, hcs], ?_⟩
      show lenUtf8 c + strLen pre = j + 1
      omega

theorem isCharBoundary_le {cs : List Nat} {i : Nat} (h : isCharBoundary cs i = true) :
    i ≤ strLen cs := by
  obtain ⟨pre, suf, hcs, hlen⟩ := isCharBoundary_decomp cs i h
  rw [hcs, strLen_append]
  omega

/-! ### Characterisation of `matches` -/

theorem matches_true_iff (s : StringInput) (lit : List Nat) :
    (s.matches lit).1 = true ↔
      (s.pos + strLen lit ≤ strLen s.string ∧
        ((encode s.string).drop s.pos).take (strLen lit) = encode lit) := by
  unfold StringInput.matches
  split_ifs with h1 h2 <;> simp_all

theorem matches_state_true {s : StringInput} {lit : List Nat}
    (h : (s.matches lit).1 = true) :
    (s.matches lit).2 = { s with pos := s.pos + strLen lit } := by
  unfold StringInput.matches at h ⊢
  split_ifs at h ⊢ <;> simp_all

theorem matches_state_false {s : StringInput} {lit : List Nat}
    (h : (s.matches lit).1 = false) :
    (s.matches lit).2 = s := by
  unfold StringInput.matches at h ⊢
  split_ifs at h ⊢ <;> simp_all

theorem matches_nil {s : StringInput} (h : s.pos ≤ strLen s.string) :
    s.matches [] = (true, s) := by
  unfold StringInput.matches
  rw [if_pos (show s.pos + strLen [] ≤ strLen s.string from h),
    if_pos (show ((encode s.string).drop s.pos).take (strLen []) = encode [] from rfl)]
  rfl

theorem matches_success_boundary {s : StringInput} {lit : List Nat}
    (hvs : validStr s.string = true) (hvl : validStr lit = true)
    (hbd : isCharBoundary s.string s.pos = true)
    (h : (s.matches lit).1 = true) :
    isCharBoundary s.string (s.pos + strLen lit) = true := by
  obtain ⟨hle, hwin⟩ := (matches_true_iff s lit).mp h
  obtain ⟨pre, suf, hcs, hlen⟩ := isCharBoundary_decomp _ _ hbd
  have hdrop : (encode s.string).drop s.pos = encode suf := by
    rw [hcs, encode_append, ← hlen, ← encode_length pre]
    exact List.drop_left _ _
  rw [hdrop] at hwin
  have hsplit : encode suf = encode lit ++ (encode suf).drop (strLen lit) := by
    conv_lhs => rw [← List.take_append_drop (strLen lit) (encode suf)]
    rw [hwin]
  have hvsuf : validStr suf = true := by
    rw [hcs] at hvs
    exact validStr_append_right hvs
  obtain ⟨u, hu⟩ := encode_agree lit suf hvl hvsuf _ hsplit
  have hstr : s.string = (pre ++ lit) ++ u := by
    rw [hcs, hu, List.append_assoc]
  have h2 : s.pos + strLen lit = strLen (pre ++ lit) := by
    rw [strLen_append]
    omega
  rw [hstr, h2]
  exact isCharBoundary_append _ _

/-! ### Characterisation of `between` -/

theorem window_length (s : StringInput) (L : Nat) (h : s.pos + L ≤ strLen s.string) :
    (((encode s.string).drop s.pos).take L).length = L := by
  simp only [List.length_take, List.length_drop, encode_length]
  omega

theorem between_spec (s : StringInput) (l r : Nat) (hw : lenUtf8 l = lenUtf8 r) :
    ∃ b s', s.between l r = some (b, s') ∧
      (b = true ↔
        (s.pos + lenUtf8 l ≤ strLen s.string ∧
          ∃ c cs,
            utf8Decode (((encode s.string).drop s.pos).take (lenUtf8 l)) = some (c :: cs) ∧
            l ≤ c ∧ c ≤ r)) ∧
      (b = true → s' = { s with pos := s.pos + lenUtf8 l }) ∧
      (b = false → s' = s) := by
  unfold StringInput.between
  rw [if_neg (show ¬ lenUtf8 l ≠ lenUtf8 r from by omega)]
  by_cases hto : s.pos + lenUtf8 l ≤ strLen s.string
  · rw [if_pos hto]
    have hwl := window_length s (lenUtf8 l) hto
    cases hdec : utf8Decode (((encode s.string).drop s.pos).take (lenUtf8 l)) with
    | none =>
      refine ⟨false, s, rfl, ?_, by intro h; simp at h, fun _ => rfl⟩
      constructor
      · intro h; simp at h
      · rintro ⟨-, c, cs, hcc, -, -⟩; simp at hcc
    | some cs0 =>
      cases cs0 with
      | nil =>
        exfalso
        have hne : ((encode s.string).drop s.pos).take (lenUtf8 l) ≠ [] := by
          intro h0
          rw [h0] at hwl
          have := lenUtf8_pos l
          simp at hwl
          omega
        exact utf8Decode_ne_some_nil hne hdec
      | cons c cs =>
        by_cases hrange : l ≤ c ∧ c ≤ r
        · refine ⟨true, { s with pos := s.pos + lenUtf8 l }, ?_, ?_, fun _ => rfl,
            by intro h; simp at h⟩
          · show (if l ≤ c ∧ c ≤ r then
                some (true, { s with pos := s.pos + lenUtf8 l }) else some (false, s)) =
                some (true, { s with pos := s.pos + lenUtf8 l })
            rw [if_pos hrange]
          · constructor
            · intro _; exact ⟨hto, c, cs, rfl, hrange.1, hrange.2⟩
            · intro _; rfl
        · refine ⟨false, s, ?_, ?_, by intro h; simp at h, fun _ => rfl⟩
          · show (if l ≤ c ∧ c ≤ r then
                some (true, { s with pos := s.pos + lenUtf8 l }) else some (false, s)) =
                some (false, s)
            rw [if_neg hrange]
          · constructor
            · intro h; simp at h
            · rintro ⟨-, c2, cs2, hcc, hl2, hr2⟩
              simp only [Option.some.injEq, List.cons.injEq] at hcc
              obtain ⟨hc2, -⟩ := hcc
              exact (hrange ⟨by omega, by omega⟩).elim
  · rw [if_neg hto]
    refine ⟨false, s, rfl, ?_, by intro h; simp at h, fun _ => rfl⟩
    constructor
    · intro h; simp at h
    · rintro ⟨h1, -⟩; exact absurd h1 hto

theorem between_width_eq {s : StringInput} {l r : Nat} {b : Bool} {s' : StringInput}
    (h : s.between l r = some (b, s')) : lenUtf8 l = lenUtf8 r := by
  by_contra hne
  unfold StringInput.between at h
  rw [if_pos hne] at h
  cases h

theorem between_success_char {s : StringInput} {l r : Nat} {pre suf : List Nat} {d : Nat}
    (hsplit : s.string = pre ++ d :: suf) (hpos : s.pos = strLen pre)
    (hv : validStr s.string = true) {s' : StringInput}
    (h : s.between l r = some (true, s')) :
    lenUtf8 d = lenUtf8 l ∧ l ≤ d ∧ d ≤ r ∧
      s'.pos = s.pos + lenUtf8 d ∧ s'.string = s.string := by
  have hw := between_width_eq h
  obtain ⟨b, s2, heq, hiff, htrue, hfalse⟩ := between_spec s l r hw
  rw [heq] at h
  simp only [Option.some.injEq, Prod.mk.injEq] at h
  obtain ⟨hb, hs⟩ := h
  subst hb
  subst hs
  obtain ⟨hto, c, cs, hdec, hlc, hcr⟩ := hiff.mp rfl
  have hvd : validChar d = true := by
    rw [hsplit] at hv
    exact validStr_cons_head (validStr_append_right hv)
  have hdrop : (encode s.string).drop s.pos = encodeChar d ++ encode suf := by
    rw [hsplit, encode_append, hpos, ← encode_length pre]
    rw [List.drop_left]
    rfl
  rw [hdrop] at hdec
  by_cases hdl : lenUtf8 d ≤ lenUtf8 l
  · have htake : (encodeChar d ++ encode suf).take (lenUtf8 l) =
        encodeChar d ++ (encode suf).take (lenUtf8 l - lenUtf8 d) := by
      rw [List.take_append_eq_append_take, encodeChar_length,
        List.take_of_length_le (by rw [encodeChar_length]; omega)]
    rw [htake, utf8Decode_encodeChar_append hvd] at hdec
    cases hinner : utf8Decode ((encode suf).take (lenUtf8 l - lenUtf8 d)) with
    | none => rw [hinner] at hdec; cases hdec
    | some u =>
      rw [hinner] at hdec
      simp only [Option.map_some', Option.some.injEq, List.cons.injEq] at hdec
      obtain ⟨hdc, -⟩ := hdec
      have hld : l ≤ d := by omega
      have hmono := lenUtf8_mono hld
      refine ⟨by omega, hld, by omega, ?_, ?_⟩
      · have h2 := htrue rfl
        rw [h2]
        have : lenUtf8 d = lenUtf8 l := by omega
        simp [this]
      · rw [htrue rfl]
  · exfalso
    have hl1 := lenUtf8_pos l
    have htake : (encodeChar d ++ encode suf).take (lenUtf8 l) =
        (encodeChar d).take (lenUtf8 l) := by
      rw [List.take_append_eq_append_take, encodeChar_length]
      have : lenUtf8 l - lenUtf8 d = 0 := by omega
      rw [this]
      simp
    rw [htake] at hdec
    have hdf : decodeFirst ((encodeChar d).take (lenUtf8 l)) = none :=
      decodeFirst_take_none hvd hl1 (by omega)
    have hlen : ((encodeChar d).take (lenUtf8 l)).length = lenUtf8 l := by
      rw [List.length_take, encodeChar_length]
      omega
    cases hW : (encodeChar d).take (lenUtf8 l) with
    | nil => rw [hW] at hlen; simp at hlen; omega
    | cons w ws =>
      rw [hW] at hdec hdf
      rw [utf8Decode_cons_none hdf] at hdec
      cases hdec

theorem between_preserves {s : StringInput} {l r : Nat} {b : Bool} {s' : StringInput}
    (hv : validStr s.string = true)
    (hbd : isCharBoundary s.string s.pos = true)
    (h : s.between l r = some (b, s')) :
    s'.string = s.string ∧ s'.pos ≤ strLen s.string ∧
      isCharBoundary s.string s'.pos = true := by
  have hw := between_width_eq h
  obtain ⟨b2, s2, heq, hiff, htrue, hfalse⟩ := between_spec s l r hw
  rw [heq] at h
  simp only [Option.some.injEq, Prod.mk.injEq] at h
  obtain ⟨hb, hs⟩ := h
  subst hs
  cases b with
  | false =>
    rw [hfalse hb]
    exact ⟨rfl, isCharBoundary_le hbd, hbd⟩
  | true =>
    subst hb
    obtain ⟨hto, -⟩ := hiff.mp rfl
    obtain ⟨pre, suf, hcs, hlen⟩ := isCharBoundary_decomp _ _ hbd
    cases suf with
    | nil =>
      exfalso
      have h1 := lenUtf8_pos l
      rw [hcs, strLen_append] at hto
      simp only [strLen] at hto
      omega
    | cons d suf2 =>
      obtain ⟨hwd, hld, hdr, hpos', hstr'⟩ :=
        between_success_char hcs hlen.symm hv heq
      refine ⟨hstr', ?_, ?_⟩
      · rw [hpos', hcs, strLen_append]
        simp only [strLen]
        omega
      · rw [hpos']
        have h2 : s.pos + lenUtf8 d = strLen (pre ++ [d]) := by
          rw [strLen_append]
          simp only [strLen]
          omega
        have hassoc : pre ++ d :: suf2 = (pre ++ [d]) ++ suf2 := by simp
        rw [h2, hcs, hassoc]
        exact isCharBoundary_append _ _

/-! ### The `line_col` scanner -/

theorem find_zero (chars : List Nat) (cur : Nat × Nat) : find chars 0 cur = some cur := by
  cases chars <;> rfl

theorem find_nil (p : Nat) (cur : Nat × Nat) : find [] (p + 1) cur = none := rfl

theorem find_cons (c : Nat) (rest : List Nat) (p : Nat) (cur : Nat × Nat) :
    find (c :: rest) (p + 1) cur =
      if c = 13 then
        if rest.head? = some 10 then
          match p with
          | 0 => find rest.tail 0 (cur.1 + 1, 1)
          | q + 1 => find rest.tail q (cur.1 + 1, 1)
        else find rest p (cur.1 + 1, 1)
      else if c = 10 then find rest p (cur.1 + 1, 1)
      else find rest p (cur.1, cur.2 + 1) := by
  cases p <;> rfl

theorem lcLe_refl (a : Nat × Nat) : lcLe a a :=
  Or.inr ⟨rfl, le_rfl⟩

theorem lcLe_trans {a b c : Nat × Nat} (h1 : lcLe a b) (h2 : lcLe b c) : lcLe a c := by
  unfold lcLe at *
  rcases h1 with h1 | ⟨h1, h1'⟩ <;> rcases h2 with h2 | ⟨h2, h2'⟩
  · exact Or.inl (by omega)
  · exact Or.inl (by omega)
  · exact Or.inl (by omega)
  · exact Or.inr ⟨by omega, by omega⟩

theorem find_isSome : ∀ (p : Nat) (chars : List Nat) (cur : Nat × Nat),
    p ≤ chars.length → ∃ r1, find chars p cur = some r1 := by
  intro p
  induction p using Nat.strong_induction_on with
  | _ p ih =>
    intro chars cur hp
    cases p with
    | zero => exact ⟨cur, find_zero chars cur⟩
    | succ p' =>
      cases chars with
      | nil => simp at hp
      | cons c rest =>
        rw [find_cons]
        simp only [List.length_cons] at hp
        by_cases hc : c = 13
        · rw [if_pos hc]
          by_cases hh : rest.head? = some 10
          · rw [if_pos hh]
            obtain ⟨rest2, hrr⟩ : ∃ r2, rest = 10 :: r2 := by
              cases rest with
              | nil => simp at hh
              | cons a r2 =>
                simp only [List.head?_cons, Option.some.injEq] at hh
                exact ⟨r2, by rw [hh]⟩
            subst hrr
            simp only [List.length_cons] at hp
            cases p' with
            | zero => exact ih 0 (by omega) rest2 (cur.1 + 1, 1) (by omega)
            | succ q => exact ih q (by omega) rest2 (cur.1 + 1, 1) (by omega)
          · rw [if_neg hh]
            exact ih p' (by omega) rest (cur.1 + 1, 1) (by omega)
        · rw [if_neg hc]
          by_cases hc2 : c = 10
          · rw [if_pos hc2]
            exact ih p' (by omega) rest (cur.1 + 1, 1) (by omega)
          · rw [if_neg hc2]
            exact ih p' (by omega) rest (cur.1, cur.2 + 1) (by omega)

theorem find_gt_none : ∀ (p : Nat) (chars : List Nat) (cur : Nat × Nat),
    chars.length < p → find chars p cur = none := by
  intro p
  induction p using Nat.strong_induction_on with
  | _ p ih =>
    intro chars cur hp
    cases p with
    | zero => omega
    | succ p' =>
      cases chars with
      | nil => exact find_nil p' cur
      | cons c rest =>
        rw [find_cons]
        simp only [List.length_cons] at hp
        by_cases hc : c = 13
        · rw [if_pos hc]
          by_cases hh : rest.head? = some 10
          · rw [if_pos hh]
            obtain ⟨rest2, hrr⟩ : ∃ r2, rest = 10 :: r2 := by
              cases rest with
              | nil => simp at hh
              | cons a r2 =>
                simp only [List.head?_cons, Option.some.injEq] at hh
                exact ⟨r2, by rw [hh]⟩
            subst hrr
            simp only [List.length_cons] at hp
            cases p' with
            | zero => omega
            | succ q => exact ih q (by omega) rest2 (cur.1 + 1, 1) (by omega)
          · rw [if_neg hh]
            exact ih p' (by omega) rest (cur.1 + 1, 1) (by omega)
        · rw [if_neg hc]
          by_cases hc2 : c = 10
          · rw [if_pos hc2]
            exact ih p' (by omega) rest (cur.1 + 1, 1) (by omega)
          · rw [if_neg hc2]
            exact ih p' (by omega) rest (cur.1, cur.2 + 1) (by omega)

theorem find_ge : ∀ (p : Nat) (chars : List Nat) (cur r1 : Nat × Nat),
    find chars p cur = some r1 → lcLe cur r1 := by
  intro p
  induction p using Nat.strong_induction_on with
  | _ p ih =>
    intro chars cur r1 h
    cases p with
    | zero =>
      rw [find_zero] at h
      injection h with h
      subst h
      exact lcLe_refl _
    | succ p' =>
      cases chars with
      | nil => rw [find_nil] at h; cases h
      | cons c rest =>
        rw [find_cons] at h
        by_cases hc : c = 13
        · rw [if_pos hc] at h
          by_cases hh : rest.head? = some 10
          · rw [if_pos hh] at h
            cases p' with
            | zero =>
              have h' : find rest.tail 0 (cur.1 + 1, 1) = some r1 := h
              rw [find_zero] at h'
              injection h' with h'
              subst h'
              exact Or.inl (Nat.lt_succ_self _)
            | succ q =>
              have h' : find rest.tail q (cur.1 + 1, 1) = some r1 := h
              exact lcLe_trans (Or.inl (Nat.lt_succ_self _)) (ih q (by omega) rest.tail _ r1 h')
          · rw [if_neg hh] at h
            exact lcLe_trans (Or.inl (Nat.lt_succ_self _)) (ih p' (by omega) rest _ r1 h)
        · rw [if_neg hc] at h
          by_cases hc2 : c = 10
          · rw [if_pos hc2] at h
            exact lcLe_trans (Or.inl (Nat.lt_succ_self _)) (ih p' (by omega) rest _ r1 h)
          · rw [if_neg hc2] at h
            have step : lcLe cur (cur.1, cur.2 + 1) := Or.inr ⟨rfl, Nat.le_succ _⟩
            exact lcLe_trans step (ih p' (by omega) rest (cur.1, cur.2 + 1) r1 h)

theorem find_ge_one : ∀ (p : Nat) (chars : List Nat) (cur r1 : Nat × Nat),
    find chars p cur = some r1 → 1 ≤ cur.1 → 1 ≤ cur.2 → 1 ≤ r1.1 ∧ 1 ≤ r1.2 := by
  intro p
  induction p using Nat.strong_induction_on with
  | _ p ih =>
    intro chars cur r1 h hl hc1
    cases p with
    | zero =>
      rw [find_zero] at h
      injection h with h
      subst h
      exact ⟨hl, hc1⟩
    | succ p' =>
      cases chars with
      | nil => rw [find_nil] at h; cases h
      | cons c rest =>
        rw [find_cons] at h
        by_cases hc : c = 13
        · rw [if_pos hc] at h
          by_cases hh : rest.head? = some 10
          · rw [if_pos hh] at h
            cases p' with
            | zero =>
              have h' : find rest.tail 0 (cur.1 + 1, 1) = some r1 := h
              exact ih 0 (by omega) rest.tail _ r1 h' (by omega) (by omega)
            | succ q =>
              have h' : find rest.tail q (cur.1 + 1, 1) = some r1 := h
              exact ih q (by omega) rest.tail _ r1 h' (by omega) (by omega)
          · rw [if_neg hh] at h
            exact ih p' (by omega) rest _ r1 h (by omega) (by omega)
        · rw [if_neg hc] at h
          by_cases hc2 : c = 10
          · rw [if_pos hc2] at h
            exact ih p' (by omega) rest _ r1 h (by omega) (by omega)
          · rw [if_neg hc2] at h
            exact ih p' (by omega) rest _ r1 h (by omega) (by omega)

theorem find_mono : ∀ (p2 p1 : Nat) (chars : List Nat) (cur r1 r2 : Nat × Nat),
    p1 ≤ p2 → find chars p1 cur = some r1 → find chars p2 cur = some r2 →
    lcLe r1 r2 := by
  intro p2
  induction p2 using Nat.strong_induction_on with
  | _ p2 ih =>
    intro p1 chars cur r1 r2 h12 h1 h2
    cases p1 with
    | zero =>
      rw [find_zero] at h1
      injection h1 with h1
      subst h1
      exact find_ge p2 chars cur r2 h2
    | succ q1 =>
      cases p2 with
      | zero => omega
      | succ q2 =>
        cases chars with
        | nil => rw [find_nil] at h1; cases h1
        | cons c rest =>
          rw [find_cons] at h1 h2
          by_cases hc : c = 13
          · rw [if_pos hc] at h1 h2
            by_cases hh : rest.head? = some 10
            · rw [if_pos hh] at h1 h2
              cases q1 with
              | zero =>
                have h1' : find rest.tail 0 (cur.1 + 1, 1) = some r1 := h1
                rw [find_zero] at h1'
                injection h1' with h1'
                subst h1'
                cases q2 with
                | zero =>
                  have h2' : find rest.tail 0 (cur.1 + 1, 1) = some r2 := h2
                  rw [find_zero] at h2'
                  injection h2' with h2'
                  subst h2'
                  exact lcLe_refl _
                | succ q2' =>
                  have h2' : find rest.tail q2' (cur.1 + 1, 1) = some r2 := h2
                  exact find_ge q2' rest.tail _ r2 h2'
              | succ q1' =>
                cases q2 with
                | zero => omega
                | succ q2' =>
                  have h1' : find rest.tail q1' (cur.1 + 1, 1) = some r1 := h1
                  have h2' : find rest.tail q2' (cur.1 + 1, 1) = some r2 := h2
                  exact ih q2' (by omega) q1' rest.tail _ r1 r2 (by omega) h1' h2'
            · rw [if_neg hh] at h1 h2
              exact ih q2 (by omega) q1 rest _ r1 r2 (by omega) h1 h2
          · rw [if_neg hc] at h1 h2
            by_cases hc2 : c = 10
            · rw [if_pos hc2] at h1 h2
              exact ih q2 (by omega) q1 rest _ r1 r2 (by omega) h1 h2
            · rw [if_neg hc2] at h1 h2
              exact ih q2 (by omega) q1 rest _ r1 r2 (by omega) h1 h2

/-! ### Slice decomposition -/

theorem boundary_pair_decomp {cs : List Nat} {a b : Nat} (hab : a ≤ b)
    (ha : isCharBoundary cs a = true) (hb : isCharBoundary cs b = true) :
    ∃ pre mid suf, cs = pre ++ mid ++ suf ∧ strLen pre = a ∧ strLen mid = b - a := by
  obtain ⟨pre, suf1, hcs1, hlen1⟩ := isCharBoundary_decomp cs a ha
  obtain ⟨pre2, suf2, hcs2, hlen2⟩ := isCharBoundary_decomp cs b hb
  have heq : pre ++ suf1 = pre2 ++ suf2 := by rw [← hcs1, ← hcs2]
  rcases List.append_eq_append_iff.mp heq with ⟨mid, hpre2, hsuf1⟩ | ⟨mid, hpre, hsuf2⟩
  · refine ⟨pre, mid, suf2, ?_, hlen1, ?_⟩
    · rw [hcs1, hsuf1, List.append_assoc]
    · have h2 : strLen pre2 = strLen pre + strLen mid := by rw [hpre2, strLen_append]
      omega
  · have h1 : strLen pre = strLen pre2 + strLen mid := by rw [hpre, strLen_append]
    have h0 : strLen mid = 0 := by omega
    have hnil : mid = [] := strLen_eq_zero h0
    subst hnil
    refine ⟨pre, [], suf1, by simpa using hcs1, hlen1, ?_⟩
    simp only [strLen]
    omega

theorem slice_eq {s : StringInput} {a b : Nat} (hab : a ≤ b)
    (ha : isCharBoundary s.string a = true) (hb : isCharBoundary s.string b = true)
    {pre mid suf : List Nat} (hcs : s.string = pre ++ mid ++ suf)
    (hpre : strLen pre = a) (hmid : strLen mid = b - a) :
    s.slice a b = some (encode mid) := by
  unfold StringInput.slice
  rw [if_pos ⟨hab, ha, hb⟩]
  congr 1
  have hp : (encode pre).length = a := by rw [encode_length]; omega
  have hm : (encode mid).length = b - a := by rw [encode_length]; omega
  rw [hcs, encode_append, encode_append, List.append_assoc, ← hpre, ← encode_length pre,
    List.drop_left, List.take_append_eq_append_take]
  rw [List.take_of_length_le (by omega)]
  have h0 : b - (encode pre).length - (encode mid).length = 0 := by omega
  rw [h0]
  simp

/-! ### The claims -/

/-- Claim C1: for every buffer, every in-bounds boundary cursor and every
literal `lit`, `matches lit` succeeds iff the bytes at
`[pos, pos + lit.len())` exist and equal `lit` byte-for-byte; success
advances the cursor by exactly `lit.len()` (buffer unchanged), failure
leaves the struct untouched, and `matches ""` always succeeds without
moving the cursor. -/
theorem C1_matches_spec (s : StringInput) (lit : List Nat)
    (hpos : s.pos ≤ s.len) (hbd : isCharBoundary s.string s.pos = true) :
    ((s.matches lit).1 = true ↔
      (s.pos + strLen lit ≤ s.len ∧
        ((encode s.string).drop s.pos).take (strLen lit) = encode lit)) ∧
    ((s.matches lit).1 = true →
      (s.matches lit).2.pos = s.pos + strLen lit ∧ (s.matches lit).2.string = s.string) ∧
    ((s.matches lit).1 = false → (s.matches lit).2 = s) ∧
    s.matches [] = (true, s) := by
  refine ⟨matches_true_iff s lit, ?_, matches_state_false, matches_nil hpos⟩
  intro h
  rw [matches_state_true h]
  exact ⟨rfl, rfl⟩

/-- Witness for C1 at the unit-test buffer `"asdasdf"`. -/
theorem C1_matches_spec_witness :
    asdInput.pos ≤ asdInput.len ∧ asdInput.matches [] = (true, asdInput) :=
  ⟨by decide, (C1_matches_spec asdInput [97, 115, 100] (by decide) (by decide)).2.2.2⟩

/-- Claim C2 counterexample: on the buffer `"a\rb\nc\r\nd"` the offsets 6
and 7 (the two bytes of the `"\r\n"` pair) map to the same (line, column)
pair (4, 1), so for `p1 = 6 < p2 = 7` the lines are equal but the column is
not strictly increasing. -/
theorem C2_counterexample :
    demoInput.line_col 6 = some (4, 1) ∧ demoInput.line_col 7 = some (4, 1) ∧
      ¬ ((4 : Nat) = 4 → (1 : Nat) < 1) := by decide

/-- Claim C2 (amended): for in-bounds offsets `p1 < p2`, the line part of
`line_col` never decreases, and on equal lines the column never decreases
(it need not strictly increase: both offsets of a `"\r\n"` pair yield the
same pair). -/
theorem C2_line_col_mono (s : StringInput) (p1 p2 : Nat) (h12 : p1 < p2)
    (hin : p2 ≤ s.string.length) :
    ∃ r1 r2, s.line_col p1 = some r1 ∧ s.line_col p2 = some r2 ∧
      (r1.1 ≤ r2.1 ∧ (r1.1 = r2.1 → r1.2 ≤ r2.2)) := by
  have hcc := length_le_strLen s.string
  obtain ⟨r1, h1⟩ := find_isSome p1 s.string (1, 1) (by omega)
  obtain ⟨r2, h2⟩ := find_isSome p2 s.string (1, 1) (by omega)
  have hm := find_mono p2 p1 s.string (1, 1) r1 r2 (by omega) h1 h2
  refine ⟨r1, r2, ?_, ?_, ?_⟩
  · unfold StringInput.line_col
    rw [if_neg (by omega)]
    exact h1
  · unfold StringInput.line_col
    rw [if_neg (by omega)]
    exact h2
  · rcases hm with hm | ⟨hm, hm'⟩
    · exact ⟨by omega, fun he => absurd he (by omega)⟩
    · exact ⟨by omega, fun _ => hm'⟩

/-- Witness for the amended C2 on the buffer `"a\rb\nc\r\nd"`. -/
theorem C2_line_col_mono_witness :
    (0 < 1 ∧ 1 ≤ demoInput.string.length) ∧
      ∃ r1 r2, demoInput.line_col 0 = some r1 ∧ demoInput.line_col 1 = some r2 ∧
        (r1.1 ≤ r2.1 ∧ (r1.1 = r2.1 → r1.2 ≤ r2.2)) :=
  ⟨⟨by decide, by decide⟩, C2_line_col_mono demoInput 0 1 (by decide) (by decide)⟩

/-- Claim C3 counterexample: on the one-character buffer `"é"` (U+00E9,
two bytes), the offset 2 satisfies `2 ≤ len()` yet `line_col 2` aborts
(the scanner runs out of characters and hits `unreachable!()`), so
`line_col` does not return a pair for every offset `≤ length()`. -/
theorem C3_counterexample :
    2 ≤ multiInput.len ∧ multiInput.line_col 2 = none := by decide

/-- Claim C3 (amended): `line_col` returns a 1-based pair exactly for
offsets up to the number of characters of the buffer (not its byte length);
beyond that it raises a fatal error. -/
theorem C3_line_col_total (s : StringInput) (pos : Nat) :
    (∃ lc, s.line_col pos = some lc ∧ 1 ≤ lc.1 ∧ 1 ≤ lc.2) ↔
      pos ≤ s.string.length := by
  constructor
  · rintro ⟨lc, hlc, -, -⟩
    by_contra hgt
    push_neg at hgt
    unfold StringInput.line_col at hlc
    split_ifs at hlc with hb
    rw [find_gt_none pos s.string (1, 1) (by omega)] at hlc
    cases hlc
  · intro hle
    have hcc := length_le_strLen s.string
    obtain ⟨lc, hlc⟩ := find_isSome pos s.string (1, 1) (by omega)
    have hone := find_ge_one pos s.string (1, 1) lc hlc (by omega) (by omega)
    refine ⟨lc, ?_, hone.1, hone.2⟩
    unfold StringInput.line_col
    rw [if_neg (by omega)]
    exact hlc

/-- Claim C4: with equal-width bounds and an in-bounds boundary cursor,
`between` never aborts; it reads the `width(low)`-byte window at the
cursor, succeeds iff the window decodes and its first character lies in
`[low, high]`, advances by exactly that width on success (buffer
unchanged), and leaves the struct untouched on failure — including when
the window is malformed or extends past the end. -/
theorem C4_between_spec (s : StringInput) (l r : Nat)
    (hw : lenUtf8 l = lenUtf8 r) (hpos : s.pos ≤ s.len)
    (hbd : isCharBoundary s.string s.pos = true) :
    ∃ b s', s.between l r = some (b, s') ∧
      (b = true ↔
        (s.pos + lenUtf8 l ≤ s.len ∧
          ∃ c cs,
            utf8Decode (((encode s.string).drop s.pos).take (lenUtf8 l)) = some (c :: cs) ∧
            l ≤ c ∧ c ≤ r)) ∧
      (b = true → s'.pos = s.pos + lenUtf8 l ∧ s'.string = s.string) ∧
      (b = false → s' = s) := by
  obtain ⟨b, s', heq, hiff, htrue, hfalse⟩ := between_spec s l r hw
  refine ⟨b, s', heq, hiff, ?_, hfalse⟩
  intro h
  rw [htrue h]
  exact ⟨rfl, rfl⟩

/-- Witness for C4 at the unit-test buffer `"bbbb"` with the range
`'a'..'c'`. -/
theorem C4_between_spec_witness :
    (lenUtf8 97 = lenUtf8 99 ∧ bbInput.pos ≤ bbInput.len) ∧
      (∃ b s', bbInput.between 97 99 = some (b, s') ∧
        (b = true ↔
          (bbInput.pos + lenUtf8 97 ≤ bbInput.len ∧
            ∃ c cs,
              utf8Decode (((encode bbInput.string).drop bbInput.pos).take (lenUtf8 97)) =
                some (c :: cs) ∧ 97 ≤ c ∧ c ≤ 99)) ∧
        (b = true → s'.pos = bbInput.pos + lenUtf8 97 ∧ s'.string = bbInput.string) ∧
        (b = false → s' = bbInput)) :=
  ⟨⟨by decide, by decide⟩, C4_between_spec bbInput 97 99 (by decide) (by decide) (by decide)⟩

/-- Claim C5: `between` with bounds of different encoded widths always
raises the fatal width-mismatch panic, for every buffer and cursor,
before looking at any buffer byte. -/
theorem C5_between_width_mismatch (s : StringInput) (l r : Nat)
    (hw : lenUtf8 l ≠ lenUtf8 r) : s.between l r = none := by
  unfold StringInput.between
  rw [if_pos hw]

/-- Witness for C5: a one-byte low bound `'a'` with the two-byte high
bound `'é'`. -/
theorem C5_between_width_mismatch_witness :
    lenUtf8 97 ≠ lenUtf8 233 ∧ StringInput.between ⟨[97], 0⟩ 97 233 = none :=
  ⟨by decide, C5_between_width_mismatch ⟨[97], 0⟩ 97 233 (by decide)⟩

/-- Claim C6: on the buffer `"a\rb\nc\r\nd"`, `line_col` maps offsets
0..8 to (1,1),(1,2),(2,1),(2,2),(3,1),(3,2),(4,1),(4,1),(4,2): a CRLF pair
is one line break, and so are a lone CR and a lone LF. -/
theorem C6_line_col_demo :
    demoInput.line_col 0 = some (1, 1) ∧ demoInput.line_col 1 = some (1, 2) ∧
    demoInput.line_col 2 = some (2, 1) ∧ demoInput.line_col 3 = some (2, 2) ∧
    demoInput.line_col 4 = some (3, 1) ∧ demoInput.line_col 5 = some (3, 2) ∧
    demoInput.line_col 6 = some (4, 1) ∧ demoInput.line_col 7 = some (4, 1) ∧
    demoInput.line_col 8 = some (4, 2) := by decide

/-- Claim C7: `line_col 0` is `(1, 1)` on every buffer, the empty one
included. -/
theorem C7_line_col_zero (s : StringInput) : s.line_col 0 = some (1, 1) := by
  unfold StringInput.line_col
  rw [if_neg (by omega)]
  exact find_zero s.string (1, 1)

/-- Claim C8: for boundary offsets `a ≤ b ≤ len()`, `slice a b` returns
exactly the bytes of the characters between the two boundaries of the
original text, the result does not depend on the cursor (and the call
cannot change it: `slice` only reads the buffer), and
`slice 0 (len())` reproduces the whole input text. -/
theorem C8_slice_spec (s : StringInput) (a b : Nat)
    (hab : a ≤ b) (hblen : b ≤ s.len)
    (hba : isCharBoundary s.string a = true) (hbb : isCharBoundary s.string b = true) :
    (∀ p q : Nat,
      StringInput.slice ⟨s.string, p⟩ a b = StringInput.slice ⟨s.string, q⟩ a b) ∧
    (∃ pre mid suf, s.string = pre ++ mid ++ suf ∧ strLen pre = a ∧
      strLen pre + strLen mid = b ∧ s.slice a b = some (encode mid)) ∧
    s.slice 0 s.len = some (encode s.string) := by
  refine ⟨fun p q => rfl, ?_, ?_⟩
  · obtain ⟨pre, mid, suf, hcs, hpre, hmid⟩ := boundary_pair_decomp hab hba hbb
    exact ⟨pre, mid, suf, hcs, hpre, by omega, slice_eq hab hba hbb hcs hpre hmid⟩
  · exact slice_eq (Nat.zero_le _) (isCharBoundary_zero _) (isCharBoundary_strLen _)
      (show s.string = [] ++ s.string ++ [] by simp) rfl
      (show strLen s.string = strLen s.string - 0 by omega)

/-- Witness for C8 on the unit-test buffer `"asdasdf"` with `slice 1 3`. -/
theorem C8_slice_spec_witness :
    ((1 : Nat) ≤ 3 ∧ 3 ≤ asdInput.len) ∧
      ((∀ p q : Nat,
        StringInput.slice ⟨asdInput.string, p⟩ 1 3 =
          StringInput.slice ⟨asdInput.string, q⟩ 1 3) ∧
      (∃ pre mid suf, asdInput.string = pre ++ mid ++ suf ∧ strLen pre = 1 ∧
        strLen pre + strLen mid = 3 ∧ asdInput.slice 1 3 = some (encode mid)) ∧
      asdInput.slice 0 asdInput.len = some (encode asdInput.string)) :=
  ⟨⟨by decide, by decide⟩,
    C8_slice_spec asdInput 1 3 (by decide) (by decide) (by decide) (by decide)⟩

/-- Claim C9: starting from an in-bounds, boundary-aligned cursor, both
`matches` (always) and `between` (with equal-width bounds, whenever it
returns) leave the buffer unchanged and a cursor that is again in bounds
and on a character boundary, whether the match succeeded or failed. -/
theorem C9_cursor_invariant (s : StringInput) (lit : List Nat) (l r : Nat)
    (hvs : validStr s.string = true) (hvl : validStr lit = true)
    (hpos : s.pos ≤ s.len) (hbd : isCharBoundary s.string s.pos = true)
    (hw : lenUtf8 l = lenUtf8 r) :
    ((s.matches lit).2.string = s.string ∧ (s.matches lit).2.pos ≤ s.len ∧
      isCharBoundary s.string (s.matches lit).2.pos = true) ∧
    (∀ b s', s.between l r = some (b, s') →
      s'.string = s.string ∧ s'.pos ≤ s.len ∧ isCharBoundary s.string s'.pos = true) := by
  constructor
  · cases hres : (s.matches lit).1 with
    | false =>
      rw [matches_state_false hres]
      exact ⟨rfl, hpos, hbd⟩
    | true =>
      rw [matches_state_true hres]
      obtain ⟨hle, -⟩ := (matches_true_iff s lit).mp hres
      exact ⟨rfl, hle, matches_success_boundary hvs hvl hbd hres⟩
  · intro b s' h
    exact between_preserves hvs hbd h

/-- Witness for C9 on the unit-test buffer `"bbbb"` with the literal `"b"`
and the range `'a'..'c'`. -/
theorem C9_cursor_invariant_witness :
    (validStr bbInput.string = true ∧ bbInput.pos ≤ bbInput.len) ∧
      (((bbInput.matches [98]).2.string = bbInput.string ∧
        (bbInput.matches [98]).2.pos ≤ bbInput.len ∧
        isCharBoundary bbInput.string (bbInput.matches [98]).2.pos = true) ∧
      (∀ b s', bbInput.between 97 99 = some (b, s') →
        s'.string = bbInput.string ∧ s'.pos ≤ bbInput.len ∧
        isCharBoundary bbInput.string s'.pos = true)) :=
  ⟨⟨by decide, by decide⟩,
    C9_cursor_invariant bbInput [98] 97 99 (by decide) (by decide) (by decide) (by decide)
      (by decide)⟩

/-- Claim C10: when `between` succeeds, the character `d` standing at the
cursor encodes to exactly `width(low)` bytes — a narrower character would
have a code point below `low` (widths are monotone in the code point), and
a wider one would make the raw window an incomplete encoding that fails to
decode — so the advance by `width(low)` lands exactly past the matched
character. -/
theorem C10_between_exact_width (s : StringInput) (l r : Nat) (pre suf : List Nat) (d : Nat)
    (hsplit : s.string = pre ++ d :: suf) (hpos : s.pos = strLen pre)
    (hv : validStr s.string = true) :
    ∀ s', s.between l r = some (true, s') →
      lenUtf8 d = lenUtf8 l ∧ l ≤ d ∧ d ≤ r ∧ s'.pos = strLen (pre ++ [d]) := by
  intro s' h
  obtain ⟨hwd, hld, hdr, hpos', -⟩ := between_success_char hsplit hpos hv h
  refine ⟨hwd, hld, hdr, ?_⟩
  rw [hpos', strLen_append, hpos]
  simp only [strLen]
  omega

/-- Witness for C10 on the unit-test buffer `"bbbb"` with the range
`'a'..'c'`: the matched character is the first `'b'`. -/
theorem C10_between_exact_width_witness :
    (bbInput.string = [] ++ 98 :: [98, 98, 98] ∧ validStr bbInput.string = true) ∧
      (lenUtf8 98 = lenUtf8 97 ∧ 97 ≤ 98 ∧ 98 ≤ 99 ∧
        (StringInput.mk [98, 98, 98, 98] 1).pos = strLen ([] ++ [98])) :=
  ⟨⟨by decide, by decide⟩,
    C10_between_exact_width bbInput 97 99 [] [98, 98, 98] 98 (by decide) (by decide)
      (by decide) ⟨[98, 98, 98, 98], 1⟩ (by decide)⟩
